import Mathlib

/-!
Verification of the step-trace generation and playback engine of the
react-heap visualizer.

The embedding below is a shallow translation of the component in
`src/unnamed/part_000` (the cleaned component, whose behavior the design
document describes).  Heap elements are JS numbers restricted to the numeric
case, modelled as `Int`; array reads `arr[i]` become `List.getD arr i 0`
(every read performed by the algorithms is in bounds, so the default is never
observed).  A second, clearly separated model (`Legacy` namespace) embeds the
older duplicate component `src/src/HeapVisualizer.jsx` where its controller
behavior differs; it is used only to exhibit the divergences.
-/

/-- Trace step, mirroring the tagged records pushed by the generators:
`push` carries `info.index`; `compare` carries the child index and the
parent/smaller-candidate index; `swap` carries the two exchanged positions;
`pop` carries `info.removedIndex`; `removeRoot` carries `info.root` and
`info.last`; `done` carries no indices.  Every step carries the array
snapshot `arr.slice()` taken at emission time. -/
inductive Step where
  | push (arr : List Int) (index : Nat)
  | compare (arr : List Int) (a b : Nat)
  | swap (arr : List Int) (a b : Nat)
  | pop (arr : List Int) (removedIndex : Nat)
  | removeRoot (arr : List Int) (root last : Nat)
  | done (arr : List Int)
  deriving DecidableEq, Repr

/-- Snapshot carried by a step (the `arr` field of the JS record). -/
def Step.arr : Step → List Int
  | .push a _ => a
  | .compare a _ _ => a
  | .swap a _ _ => a
  | .pop a _ => a
  | .removeRoot a _ _ => a
  | .done a => a

/-- Test for the `compare` tag. -/
def Step.isCompare : Step → Bool
  | .compare _ _ _ => true
  | _ => false

/-- Test for the `swap` tag. -/
def Step.isSwap : Step → Bool
  | .swap _ _ _ => true
  | _ => false

/-- Test for the `push` tag. -/
def Step.isPush : Step → Bool
  | .push _ _ => true
  | _ => false

/-- Test for the `done` tag. -/
def Step.isDone : Step → Bool
  | .done _ => true
  | _ => false

/-- In-place exchange of positions `i` and `j`, as the source performs it with
a temporary: `tmp = arr[i]; arr[i] = arr[j]; arr[j] = tmp`. -/
def swapL (arr : List Int) (i j : Nat) : List Int :=
  (arr.set i (arr.getD j 0)).set j (arr.getD i 0)

/-- Candidate child chosen by the bubble-down loop:
`let smaller = left; if (right < arr.length && arr[right] < arr[left]) smaller = right`. -/
def smallerChild (arr : List Int) (i : Nat) : Nat :=
  if 2 * i + 2 < arr.length ∧ arr.getD (2 * i + 2) 0 < arr.getD (2 * i + 1) 0 then
    2 * i + 2
  else
    2 * i + 1

/-- Bubble-up loop of `generateInsertSteps` (the `while (i > 0)` loop): emits
`compare{i, parent}` unconditionally, and on `arr[i] < arr[parent]` swaps,
emits `swap` and continues from `parent`.  Returns the emitted steps and the
array as it stands when the loop exits. -/
def bubbleUp (arr : List Int) (i : Nat) : List Step × List Int :=
  if h : 0 < i then
    if arr.getD i 0 < arr.getD ((i - 1) / 2) 0 then
      (Step.compare arr i ((i - 1) / 2) ::
         Step.swap (swapL arr i ((i - 1) / 2)) i ((i - 1) / 2) ::
         (bubbleUp (swapL arr i ((i - 1) / 2)) ((i - 1) / 2)).1,
       (bubbleUp (swapL arr i ((i - 1) / 2)) ((i - 1) / 2)).2)
    else
      ([Step.compare arr i ((i - 1) / 2)], arr)
  else
    ([], arr)
termination_by i
decreasing_by all_goals omega

/-- Bubble-down loop of `generateDeleteMinSteps` (the `while (true)` loop):
stops when `left >= arr.length`; otherwise picks the smaller child, emits
`compare{i, smaller}` unconditionally, and on `arr[smaller] < arr[i]` swaps,
emits `swap` and continues from `smaller`. -/
def bubbleDown (arr : List Int) (i : Nat) : List Step × List Int :=
  if h : 2 * i + 1 < arr.length then
    if arr.getD (smallerChild arr i) 0 < arr.getD i 0 then
      (Step.compare arr i (smallerChild arr i) ::
         Step.swap (swapL arr i (smallerChild arr i)) i (smallerChild arr i) ::
         (bubbleDown (swapL arr i (smallerChild arr i)) (smallerChild arr i)).1,
       (bubbleDown (swapL arr i (smallerChild arr i)) (smallerChild arr i)).2)
    else
      ([Step.compare arr i (smallerChild arr i)], arr)
  else
    ([], arr)
termination_by arr.length - i
decreasing_by
  simp only [swapL, List.length_set]
  simp only [smallerChild]
  split <;> omega

/-- Trace generator for insert (source `generateInsertSteps`): append the
value, emit `push`, run the bubble-up loop from the last index, emit `done`. -/
def generateInsertSteps (startHeap : List Int) (insertedValue : Int) : List Step :=
  Step.push (startHeap ++ [insertedValue]) ((startHeap ++ [insertedValue]).length - 1) ::
    (bubbleUp (startHeap ++ [insertedValue]) ((startHeap ++ [insertedValue]).length - 1)).1 ++
    [Step.done (bubbleUp (startHeap ++ [insertedValue]) ((startHeap ++ [insertedValue]).length - 1)).2]

/-- Trace generator for delete-min (source `generateDeleteMinSteps`): empty
trace on the empty heap; otherwise `removeRoot`, then for a single element
just pop-and-done, else swap root/last, pop, bubble down from the root, and
emit `done`. -/
def generateDeleteMinSteps (startHeap : List Int) : List Step :=
  if startHeap.length = 0 then []
  else
    if startHeap.length - 1 = 0 then
      [Step.removeRoot startHeap 0 (startHeap.length - 1), Step.done startHeap.dropLast]
    else
      Step.removeRoot startHeap 0 (startHeap.length - 1) ::
        Step.swap (swapL startHeap 0 (startHeap.length - 1)) 0 (startHeap.length - 1) ::
        Step.pop (swapL startHeap 0 (startHeap.length - 1)).dropLast (startHeap.length - 1) ::
        (bubbleDown (swapL startHeap 0 (startHeap.length - 1)).dropLast 0).1 ++
        [Step.done (bubbleDown (swapL startHeap 0 (startHeap.length - 1)).dropLast 0).2]

/-- Snapshot of the last step of a trace (the array the heap holds once the
trace has fully applied); the empty list for an empty trace. -/
def finalSnap (t : List Step) : List Int :=
  match t.getLast? with
  | some s => s.arr
  | none => []

/-- Min-heap invariant over the 0-indexed level-order array: for every `i > 0`
within bounds, `heap[(i-1)/2] <= heap[i]`. -/
def isMinHeap (arr : List Int) : Prop :=
  ∀ i, i < arr.length → 0 < i → arr.getD ((i - 1) / 2) 0 ≤ arr.getD i 0

instance : DecidablePred isMinHeap := fun arr =>
  inferInstanceAs (Decidable (∀ i, i < arr.length → _))

/-- Loop invariant of bubble-up: the parent inequality holds at every
position other than `k`, and the parent of `k` already dominates the children
of `k` (so a swap at `k` cannot break the edges below `k`). -/
def upInv (arr : List Int) (k : Nat) : Prop :=
  (∀ j, j < arr.length → 0 < j → j ≠ k →
     arr.getD ((j - 1) / 2) 0 ≤ arr.getD j 0) ∧
  (0 < k → ∀ c, c < arr.length → (c = 2 * k + 1 ∨ c = 2 * k + 2) →
     arr.getD ((k - 1) / 2) 0 ≤ arr.getD c 0)

/-- Loop invariant of bubble-down: the parent inequality holds at every
position whose parent is not `k`, and the parent of `k` dominates the
children of `k`. -/
def downInv (arr : List Int) (k : Nat) : Prop :=
  (∀ j, j < arr.length → 0 < j → (j - 1) / 2 ≠ k →
     arr.getD ((j - 1) / 2) 0 ≤ arr.getD j 0) ∧
  (0 < k → ∀ c, c < arr.length → (c = 2 * k + 1 ∨ c = 2 * k + 2) →
     arr.getD ((k - 1) / 2) 0 ≤ arr.getD c 0)

/-- Snapshot-framing of compare steps, relative to the snapshot `prev` of the
immediately preceding step: a `compare` step carries `prev` unchanged, while
every other step updates the reference snapshot to its own. -/
def compareFramed : List Int → List Step → Prop
  | _, [] => True
  | prev, s :: rest =>
    match s with
    | Step.compare a _ _ => a = prev ∧ compareFramed prev rest
    | _ => compareFramed s.arr rest

/-- Snapshot-framing over a whole trace: the first step is never a `compare`
(so every `compare` has a predecessor), and from there on every `compare`
carries the snapshot of the step before it. -/
def compareFramedTrace : List Step → Prop
  | [] => True
  | s :: rest => s.isCompare = false ∧ compareFramed s.arr rest

/-- Every `swap` step is immediately preceded by a `compare` step; the flag
records whether the previous step was a `compare`. -/
def swapsFollowCompare : Bool → List Step → Prop
  | _, [] => True
  | prev, s :: rest =>
    (s.isSwap = true → prev = true) ∧ swapsFollowCompare s.isCompare rest

/-- Highlight kinds published by `applyStep` (the `type` field of the JS
highlight object). -/
inductive HighlightType where
  | compare
  | swap
  | push
  | pop
  | removeRoot
  | done
  deriving DecidableEq, Repr

/-- Highlight descriptor published for a step, mirroring the `setHighlight`
calls of `applyStep`; `none` models the empty object `\x7b\x7d`. -/
def stepHighlight : Step → Option (HighlightType × List Nat)
  | .compare _ a b => some (HighlightType.compare, [a, b])
  | .swap _ a b => some (HighlightType.swap, [a, b])
  | .push _ idx => some (HighlightType.push, [idx])
  | .pop _ r => some (HighlightType.pop, [r])
  | .removeRoot _ r l => some (HighlightType.removeRoot, [r, l])
  | .done _ => some (HighlightType.done, [])

/-- Pseudo-code text published for a step, mirroring the `setPseudo` calls of
`applyStep`. -/
def stepPseudo : Step → String
  | .compare _ a b =>
      "# compare child & parent\nif heap[" ++ toString a ++ "] < heap[" ++
        toString b ++ "]:\n    # swap on next step"
  | .swap _ a b =>
      "# swap\nswap(heap[" ++ toString a ++ "], heap[" ++ toString b ++ "])"
  | .push arr idx =>
      "# insert new value\nheap.append(" ++ toString (arr.getD idx 0) ++ ")"
  | .pop _ _ => "# remove last\nheap.pop()"
  | .removeRoot _ _ l =>
      "# delete-min begins\nswap(heap[0], heap[" ++ toString l ++ "])"
  | .done _ => "# heap property restored"

/-- Controller state of the cleaned component (`part_000`): the published
tuple (`heap`, `highlight`, `pseudo`, `running`), the configured interval,
the refs `stepsRef`/`stepIndexRef`/`timerRef`, and bookkeeping for the
environment's interval timers: `liveTimers` is the list of interval handles
currently scheduled by the browser (most recent first) and `nextHandle` the
next fresh handle `setInterval` would return. -/
structure CState where
  heap : List Int
  pseudo : String
  running : Bool
  speedMs : Nat
  highlight : Option (HighlightType × List Nat)
  steps : List Step
  stepIndex : Nat
  timerRef : Option Nat
  liveTimers : List Nat
  nextHandle : Nat
  deriving DecidableEq, Repr

/-- Initial component state (`useState` initializers; empty refs). -/
def initState : CState :=
  { heap := [], pseudo := "", running := false, speedMs := 600,
    highlight := none, steps := [], stepIndex := 0, timerRef := none,
    liveTimers := [], nextHandle := 0 }

/-- The guarded `clearInterval(timerRef.current); timerRef.current = null`
idiom: cancels the held interval (removing it from the live set) and nulls
the ref; a no-op when no handle is held. -/
def clearTimer (st : CState) : CState :=
  match st.timerRef with
  | some h => { st with liveTimers := st.liveTimers.erase h, timerRef := none }
  | none => st

/-- `timerRef.current = setInterval(...)`: schedules a fresh interval and
stores its handle in the ref. -/
def setTimer (st : CState) : CState :=
  { st with
    timerRef := some st.nextHandle
    liveTimers := st.nextHandle :: st.liveTimers
    nextHandle := st.nextHandle + 1 }

/-- Source `applyStep`: publishes the step's snapshot, highlight and
pseudo-code text. -/
def applyStep (s : Step) (st : CState) : CState :=
  { st with heap := s.arr, highlight := stepHighlight s, pseudo := stepPseudo s }

/-- Source `startSteps` of the cleaned component: ignores an empty trace;
otherwise stops any running timer, stores the trace, immediately applies
step 0 (heap, highlight, pseudo), sets the cursor to 1 and stays paused. -/
def startSteps (steps : List Step) (st : CState) : CState :=
  match steps with
  | [] => st
  | s0 :: _ =>
    let st1 := clearTimer st
    let st2 := { st1 with steps := steps, heap := s0.arr }
    let st3 := applyStep s0 st2
    { st3 with stepIndex := 1, running := false }

/-- Source `runStep`: past the end of the trace it cancels the timer, stops
and clears the highlight; otherwise it applies the step at the cursor and
advances the cursor. -/
def runStep (st : CState) : CState :=
  if h : st.stepIndex < st.steps.length then
    { applyStep (st.steps.get ⟨st.stepIndex, h⟩) st with
        stepIndex := st.stepIndex + 1 }
  else
    { clearTimer st with running := false, highlight := none }

/-- Source `handlePlay`: a no-op when already playing or when no step is
pending; otherwise clears any existing timer and schedules a fresh one. -/
def handlePlay (st : CState) : CState :=
  if st.running then st
  else if st.steps.length ≤ st.stepIndex then st
  else setTimer { clearTimer st with running := true }

/-- Source `handlePause`: cancels the timer and stops. -/
def handlePause (st : CState) : CState :=
  { clearTimer st with running := false }

/-- Source `handleNext`: while playing, first pauses (cancelling the timer),
then runs a single step. -/
def handleNext (st : CState) : CState :=
  runStep (if st.running && st.timerRef.isSome then
    { clearTimer st with running := false }
  else st)

/-- Source `handleInsert`: the input's numeric conversion is modelled as
`Option Int`, `none` standing for `NaN` (`Number(value)` of a non-numeric
string); on `NaN` the handler returns without generating or loading a trace. -/
def handleInsert (v : Option Int) (st : CState) : CState :=
  match v with
  | none => st
  | some n => startSteps (generateInsertSteps st.heap n) st

/-- Source `handleRandomInsert`, with the random draw as a parameter. -/
def handleRandomInsert (n : Int) (st : CState) : CState :=
  startSteps (generateInsertSteps st.heap n) st

/-- Source `handleDeleteMin`. -/
def handleDeleteMin (st : CState) : CState :=
  startSteps (generateDeleteMinSteps st.heap) st

/-- The `useEffect` on `speedMs`: while running, restarts the interval at the
new speed (clear then re-create); otherwise does nothing. -/
def speedEffect (st : CState) : CState :=
  if st.running then setTimer (clearTimer st) else st

/-- Timer-handle discipline: the browser's live interval set is exactly the
held handle (or empty when none is held). -/
def timerOK (st : CState) : Prop :=
  st.liveTimers = match st.timerRef with
    | some h => [h]
    | none => []

/-- Controller states reachable from mount by the component's operations:
the three flow starters, play, pause, manual step, a timer tick (possible
only while an interval is live), a speed change, and unmount cleanup. -/
inductive Reachable : CState → Prop where
  | init : Reachable initState
  | insert (st : CState) (v : Option Int) : Reachable st → Reachable (handleInsert v st)
  | randomInsert (st : CState) (n : Int) : Reachable st → Reachable (handleRandomInsert n st)
  | deleteMin (st : CState) : Reachable st → Reachable (handleDeleteMin st)
  | play (st : CState) : Reachable st → Reachable (handlePlay st)
  | pause (st : CState) : Reachable st → Reachable (handlePause st)
  | next (st : CState) : Reachable st → Reachable (handleNext st)
  | tick (st : CState) : Reachable st → st.liveTimers ≠ [] → Reachable (runStep st)
  | speed (st : CState) (ms : Nat) : Reachable st → Reachable (speedEffect { st with speedMs := ms })
  | teardown (st : CState) : Reachable st → Reachable (clearTimer st)

/-- Controller state of the older duplicate component
(`src/src/HeapVisualizer.jsx`), which publishes heap and highlight only. -/
structure JState where
  heap : List Int
  running : Bool
  highlight : Option (HighlightType × List Nat)
  steps : List Step
  stepIndex : Nat
  timerRef : Option Nat
  liveTimers : List Nat
  nextHandle : Nat
  deriving DecidableEq, Repr

namespace Legacy

/-- Initial state of the older duplicate component. -/
def initState : JState :=
  { heap := [], running := false, highlight := none, steps := [],
    stepIndex := 0, timerRef := none, liveTimers := [], nextHandle := 0 }

/-- The older component's `startSteps` (`HeapVisualizer.jsx` lines 100-110):
stores the trace, sets `running`, clears the highlight, publishes only the
heap snapshot of step 0, sets the cursor to 1 and immediately schedules an
interval — without cancelling any interval already scheduled. -/
def startSteps (steps : List Step) (st : JState) : JState :=
  match steps with
  | [] => st
  | s0 :: _ =>
    { st with
      steps := steps
      running := true
      highlight := none
      heap := s0.arr
      stepIndex := 1
      timerRef := some st.nextHandle
      liveTimers := st.nextHandle :: st.liveTimers
      nextHandle := st.nextHandle + 1 }

/-- The older component's `handleInsert`: converts and inserts without any
`NaN` guard. -/
def handleInsert (n : Int) (st : JState) : JState :=
  startSteps (generateInsertSteps st.heap n) st

end Legacy

/-- JS numbers including `NaN`, for the older component's unguarded insert
path: `none` is `NaN`, and `<` is false whenever either side is `NaN`. -/
def jlt (a b : Option Int) : Bool :=
  match a, b with
  | some x, some y => decide (x < y)
  | _, _ => false

/-- Step records over `NaN`-capable numbers (the tags an insert trace uses). -/
inductive StepN where
  | push (arr : List (Option Int)) (index : Nat)
  | compare (arr : List (Option Int)) (a b : Nat)
  | swap (arr : List (Option Int)) (a b : Nat)
  | done (arr : List (Option Int))
  deriving DecidableEq, Repr

/-- Snapshot carried by a `NaN`-capable step. -/
def StepN.arr : StepN → List (Option Int)
  | .push a _ => a
  | .compare a _ _ => a
  | .swap a _ _ => a
  | .done a => a

/-- In-place exchange over `NaN`-capable numbers. -/
def swapN (arr : List (Option Int)) (i j : Nat) : List (Option Int) :=
  (arr.set i (arr.getD j none)).set j (arr.getD i none)

/-- Bubble-up loop of `generateInsertSteps` over `NaN`-capable numbers,
comparing with the JS `<`. -/
def bubbleUpN (arr : List (Option Int)) (i : Nat) : List StepN × List (Option Int) :=
  if h : 0 < i then
    if jlt (arr.getD i none) (arr.getD ((i - 1) / 2) none) then
      (StepN.compare arr i ((i - 1) / 2) ::
         StepN.swap (swapN arr i ((i - 1) / 2)) i ((i - 1) / 2) ::
         (bubbleUpN (swapN arr i ((i - 1) / 2)) ((i - 1) / 2)).1,
       (bubbleUpN (swapN arr i ((i - 1) / 2)) ((i - 1) / 2)).2)
    else
      ([StepN.compare arr i ((i - 1) / 2)], arr)
  else
    ([], arr)
termination_by i
decreasing_by all_goals omega

/-- `generateInsertSteps` over `NaN`-capable numbers. -/
def generateInsertStepsN (startHeap : List (Option Int)) (v : Option Int) : List StepN :=
  StepN.push (startHeap ++ [v]) ((startHeap ++ [v]).length - 1) ::
    (bubbleUpN (startHeap ++ [v]) ((startHeap ++ [v]).length - 1)).1 ++
    [StepN.done (bubbleUpN (startHeap ++ [v]) ((startHeap ++ [v]).length - 1)).2]

/-- Older component's controller state over `NaN`-capable numbers. -/
structure JNState where
  heap : List (Option Int)
  running : Bool
  steps : List StepN
  stepIndex : Nat
  timerRef : Option Nat
  liveTimers : List Nat
  nextHandle : Nat
  deriving DecidableEq, Repr

/-- Initial state of the older component over `NaN`-capable numbers. -/
def initStateN : JNState :=
  { heap := [], running := false, steps := [], stepIndex := 0,
    timerRef := none, liveTimers := [], nextHandle := 0 }

/-- The older component's `startSteps` over `NaN`-capable numbers. -/
def startStepsN (steps : List StepN) (st : JNState) : JNState :=
  match steps with
  | [] => st
  | s0 :: _ =>
    { st with
      steps := steps
      running := true
      heap := s0.arr
      stepIndex := 1
      timerRef := some st.nextHandle
      liveTimers := st.nextHandle :: st.liveTimers
      nextHandle := st.nextHandle + 1 }

/-- The older component's `handleInsert` over `NaN`-capable numbers: no
`NaN` guard — `Number(value)` (possibly `NaN`, i.e. `none`) is passed
straight to the generator and the trace is loaded. -/
def handleInsertN (v : Option Int) (st : JNState) : JNState :=
  startStepsN (generateInsertStepsN st.heap v) st

/-- Reading position `j` after writing `x` at position `i`. -/
theorem getD_set' (arr : List Int) (i j : Nat) (x d : Int) :
    (arr.set i x).getD j d = if i = j ∧ j < arr.length then x else arr.getD j d := by
  by_cases hj : j < arr.length
  · rw [List.getD_eq_getElem _ d (by simpa using hj), List.getElem_set,
      List.getD_eq_getElem _ d hj]
    by_cases hij : i = j <;> simp [hij, hj]
  · rw [List.getD_eq_default _ d (by simpa using Nat.le_of_not_lt hj),
      List.getD_eq_default _ d (Nat.le_of_not_lt hj)]
    simp [hj]

/-- Exchanging two positions keeps the length. -/
theorem length_swapL (arr : List Int) (i j : Nat) :
    (swapL arr i j).length = arr.length := by
  simp [swapL]

/-- Pointwise description of the in-place exchange. -/
theorem getD_swapL (arr : List Int) (i j k : Nat) (hi : i < arr.length)
    (hj : j < arr.length) :
    (swapL arr i j).getD k 0 =
      if k = j then arr.getD i 0
      else if k = i then arr.getD j 0
      else arr.getD k 0 := by
  simp only [swapL, getD_set', List.length_set]
  split_ifs <;> first | rfl | omega

/-- Replacing the element at `m` and moving the old element to the front is a
permutation of pushing the new element on the front. -/
theorem head_set_perm (a : Int) (t : List Int) (m : Nat) (hm : m < t.length) :
    (t.getD m 0 :: t.set m a).Perm (a :: t) := by
  induction t generalizing m with
  | nil => simp at hm
  | cons b t ih =>
    cases m with
    | zero => simpa using List.Perm.swap a b t
    | succ k =>
      have h1 : (t.getD k 0 :: b :: t.set k a).Perm (b :: t.getD k 0 :: t.set k a) :=
        List.Perm.swap _ _ _
      have h2 : (b :: t.getD k 0 :: t.set k a).Perm (b :: a :: t) :=
        (ih k (by simpa using hm)).cons b
      have h3 : (b :: a :: t).Perm (a :: b :: t) := List.Perm.swap _ _ _
      simpa using h1.trans (h2.trans h3)

/-- Exchanging two in-bounds positions permutes the list. -/
theorem swapL_perm (arr : List Int) (i j : Nat) (hi : i < arr.length)
    (hj : j < arr.length) : (swapL arr i j).Perm arr := by
  induction arr generalizing i j with
  | nil => simp at hi
  | cons b t ih =>
    cases i with
    | zero =>
      cases j with
      | zero => simp [swapL]
      | succ k => simpa [swapL] using head_set_perm b t k (by simpa using hj)
    | succ m =>
      cases j with
      | zero => simpa [swapL] using head_set_perm b t m (by simpa using hi)
      | succ k =>
        simpa [swapL] using (ih m k (by simpa using hi) (by simpa using hj)).cons b

/-- Reading the prefix left by a pop. -/
theorem getD_dropLast (l : List Int) (j : Nat) (hj : j < l.length - 1) :
    l.dropLast.getD j 0 = l.getD j 0 := by
  rw [List.getD_eq_getElem _ _ (by simpa using hj), List.getElem_dropLast,
    List.getD_eq_getElem _ _ (by omega)]

/-- A non-empty list is its pop-prefix followed by its last element. -/
theorem dropLast_concat_getD (l : List Int) (h : l ≠ []) :
    l.dropLast ++ [l.getD (l.length - 1) 0] = l := by
  have h1 := List.dropLast_concat_getLast h
  rwa [List.getLast_eq_getElem,
    ← List.getD_eq_getElem l 0 (by cases l <;> simp_all)] at h1

/-- Appending a value to a heap starts bubble-up in the invariant. -/
theorem up_start (arr : List Int) (v : Int) (hheap : isMinHeap arr) :
    upInv (arr ++ [v]) arr.length := by
  constructor
  · intro j hj hj0 hjk
    have hj' : j < arr.length := by simp at hj; omega
    rw [List.getD_append _ _ _ _ (by omega), List.getD_append _ _ _ _ (by omega)]
    exact hheap j hj' hj0
  · intro hk c hc hcc
    simp at hc
    omega

/-- When the bubble-up loop exits, the whole array is a heap. -/
theorem up_stop (arr : List Int) (k : Nat) (hinv : upInv arr k)
    (hstop : k = 0 ∨ ¬ arr.getD k 0 < arr.getD ((k - 1) / 2) 0) :
    isMinHeap arr := by
  intro j hj hj0
  by_cases hjk : j = k
  · subst hjk
    rcases hstop with h | h
    · omega
    · exact le_of_not_lt h
  · exact hinv.1 j hj hj0 hjk

/-- A bubble-up swap moves the invariant from `k` to its parent. -/
theorem up_step (arr : List Int) (k : Nat) (hk : k < arr.length) (hk0 : 0 < k)
    (hinv : upInv arr k)
    (hlt : arr.getD k 0 < arr.getD ((k - 1) / 2) 0) :
    upInv (swapL arr k ((k - 1) / 2)) ((k - 1) / 2) := by
  obtain ⟨h1, h2⟩ := hinv
  have hp : (k - 1) / 2 < arr.length := by omega
  constructor
  · intro j hj hj0 hjp
    rw [length_swapL] at hj
    rw [getD_swapL arr k _ _ hk hp, getD_swapL arr k _ _ hk hp]
    by_cases hjk : j = k
    · subst hjk
      rw [if_pos rfl, if_neg (by omega), if_pos rfl]
      exact le_of_lt hlt
    · by_cases hpj : (j - 1) / 2 = k
      · rw [if_neg (by omega), if_pos hpj, if_neg hjp, if_neg hjk]
        exact h2 hk0 j hj (by omega)
      · by_cases hpp : (j - 1) / 2 = (k - 1) / 2
        · rw [if_pos hpp, if_neg hjp, if_neg hjk]
          have hj1 := h1 j hj hj0 hjk
          rw [hpp] at hj1
          exact le_trans (le_of_lt hlt) hj1
        · rw [if_neg hpp, if_neg hpj, if_neg hjp, if_neg hjk]
          exact h1 j hj hj0 hjk
  · intro hp0 c hc hcc
    rw [length_swapL] at hc
    rw [getD_swapL arr k _ _ hk hp, getD_swapL arr k _ _ hk hp]
    by_cases hck : c = k
    · subst hck
      rw [if_neg (by omega), if_neg (by omega), if_neg (by omega), if_pos rfl]
      exact h1 _ hp hp0 (by omega)
    · rw [if_neg (by omega), if_neg (by omega), if_neg (by omega), if_neg hck]
      have hc1 := h1 c hc (by omega) hck
      have hcp : (c - 1) / 2 = (k - 1) / 2 := by omega
      rw [hcp] at hc1
      exact le_trans (h1 _ hp hp0 (by omega)) hc1

/-- Bubble-up from a position in the invariant yields a heap. -/
theorem bubbleUp_heap : ∀ (k : Nat) (arr : List Int), k < arr.length →
    upInv arr k → isMinHeap (bubbleUp arr k).2 := by
  intro k
  induction k using Nat.strong_induction_on with
  | _ k ih =>
    intro arr hk hinv
    rw [bubbleUp]
    by_cases hk0 : 0 < k
    · rw [dif_pos hk0]
      by_cases hlt : arr.getD k 0 < arr.getD ((k - 1) / 2) 0
      · rw [if_pos hlt]
        exact ih ((k - 1) / 2) (by omega) _ (by rw [length_swapL]; omega)
          (up_step arr k hk hk0 hinv hlt)
      · rw [if_neg hlt]
        exact up_stop arr k hinv (Or.inr hlt)
    · rw [dif_neg hk0]
      exact up_stop arr k hinv (Or.inl (by omega))

/-- Bubble-up permutes the array it is given. -/
theorem bubbleUp_perm : ∀ (k : Nat) (arr : List Int), k < arr.length →
    (bubbleUp arr k).2.Perm arr := by
  intro k
  induction k using Nat.strong_induction_on with
  | _ k ih =>
    intro arr hk
    rw [bubbleUp]
    by_cases hk0 : 0 < k
    · rw [dif_pos hk0]
      by_cases hlt : arr.getD k 0 < arr.getD ((k - 1) / 2) 0
      · rw [if_pos hlt]
        exact (ih ((k - 1) / 2) (by omega) _ (by rw [length_swapL]; omega)).trans
          (swapL_perm arr k ((k - 1) / 2) hk (by omega))
      · rw [if_neg hlt]
    · rw [dif_neg hk0]

/-- Shape and bound of the chosen child. -/
theorem smallerChild_bounds (arr : List Int) (k : Nat) (h : 2 * k + 1 < arr.length) :
    (smallerChild arr k = 2 * k + 1 ∨ smallerChild arr k = 2 * k + 2) ∧
      smallerChild arr k < arr.length := by
  unfold smallerChild
  split <;> simp_all <;> omega

/-- The chosen child holds the least value among the existing children. -/
theorem smallerChild_min (arr : List Int) (k : Nat) (h : 2 * k + 1 < arr.length)
    (c : Nat) (hc : c = 2 * k + 1 ∨ c = 2 * k + 2) (hcl : c < arr.length) :
    arr.getD (smallerChild arr k) 0 ≤ arr.getD c 0 := by
  unfold smallerChild
  split
  next hr =>
    rcases hc with hc | hc <;> subst hc
    · exact le_of_lt hr.2
    · exact le_refl _
  next hr =>
    rcases hc with hc | hc <;> subst hc
    · exact le_refl _
    · rcases not_and_or.mp hr with hr1 | hr2
      · omega
      · exact le_of_not_lt hr2

/-- When the loop exits at a leaf, the whole array is a heap. -/
theorem down_stop_leaf (arr : List Int) (k : Nat) (hinv : downInv arr k)
    (hleaf : arr.length ≤ 2 * k + 1) : isMinHeap arr := by
  intro j hj hj0
  exact hinv.1 j hj hj0 (by omega)

/-- When the loop exits because the chosen child is not smaller, the whole
array is a heap. -/
theorem down_stop_ge (arr : List Int) (k : Nat) (hinv : downInv arr k)
    (h : 2 * k + 1 < arr.length)
    (hge : ¬ arr.getD (smallerChild arr k) 0 < arr.getD k 0) : isMinHeap arr := by
  intro j hj hj0
  by_cases hpj : (j - 1) / 2 = k
  · rw [hpj]
    have hmin := smallerChild_min arr k h j (by omega) hj
    exact le_trans (le_of_not_lt hge) hmin
  · exact hinv.1 j hj hj0 hpj

/-- A bubble-down swap moves the invariant from `k` to the chosen child. -/
theorem down_step (arr : List Int) (k : Nat) (hinv : downInv arr k)
    (h : 2 * k + 1 < arr.length)
    (hlt : arr.getD (smallerChild arr k) 0 < arr.getD k 0) :
    downInv (swapL arr k (smallerChild arr k)) (smallerChild arr k) := by
  obtain ⟨h1, h2⟩ := hinv
  obtain ⟨hsh, hsl⟩ := smallerChild_bounds arr k h
  have hk : k < arr.length := by omega
  have hks : k < smallerChild arr k := by omega
  constructor
  · intro j hj hj0 hjpsm
    rw [length_swapL] at hj
    rw [getD_swapL arr k _ _ hk hsl, getD_swapL arr k _ _ hk hsl]
    by_cases hjsm : j = smallerChild arr k
    · subst hjsm
      rw [if_neg (by omega), if_pos (by omega), if_pos rfl]
      exact le_of_lt hlt
    · by_cases hjk : j = k
      · subst hjk
        rw [if_neg (by omega), if_neg (by omega), if_neg (by omega), if_pos rfl]
        exact h2 (by omega) _ hsl (by omega)
      · by_cases hpj : (j - 1) / 2 = k
        · rw [if_neg hjpsm, if_pos hpj, if_neg hjsm, if_neg hjk]
          exact smallerChild_min arr k h j (by omega) hj
        · rw [if_neg hjpsm, if_neg hpj, if_neg hjsm, if_neg hjk]
          exact h1 j hj hj0 hpj
  · intro hsm0 c hc hcc
    rw [length_swapL] at hc
    rw [getD_swapL arr k _ _ hk hsl, getD_swapL arr k _ _ hk hsl]
    rw [if_neg (by omega), if_pos (by omega), if_neg (by omega), if_neg (by omega)]
    have hc1 := h1 c hc (by omega) (by omega)
    have hcp : (c - 1) / 2 = smallerChild arr k := by omega
    rw [hcp] at hc1
    exact hc1

/-- Fuel-indexed form of bubble-down correctness. -/
theorem bubbleDown_heap_fuel : ∀ (m : Nat) (arr : List Int) (k : Nat),
    arr.length - k ≤ m → downInv arr k → isMinHeap (bubbleDown arr k).2 := by
  intro m
  induction m with
  | zero =>
    intro arr k hm hinv
    rw [bubbleDown, dif_neg (by omega)]
    exact down_stop_leaf arr k hinv (by omega)
  | succ m ih =>
    intro arr k hm hinv
    by_cases h : 2 * k + 1 < arr.length
    · rw [bubbleDown, dif_pos h]
      by_cases hlt : arr.getD (smallerChild arr k) 0 < arr.getD k 0
      · rw [if_pos hlt]
        have hsb := smallerChild_bounds arr k h
        exact ih _ _ (by rw [length_swapL]; omega) (down_step arr k hinv h hlt)
      · rw [if_neg hlt]
        exact down_stop_ge arr k hinv h hlt
    · rw [bubbleDown, dif_neg h]
      exact down_stop_leaf arr k hinv (by omega)

/-- Bubble-down from a position in the invariant yields a heap. -/
theorem bubbleDown_heap (arr : List Int) (k : Nat) (hinv : downInv arr k) :
    isMinHeap (bubbleDown arr k).2 :=
  bubbleDown_heap_fuel (arr.length - k) arr k le_rfl hinv

/-- Fuel-indexed form: bubble-down permutes the array it is given. -/
theorem bubbleDown_perm_fuel : ∀ (m : Nat) (arr : List Int) (k : Nat),
    arr.length - k ≤ m → (bubbleDown arr k).2.Perm arr := by
  intro m
  induction m with
  | zero =>
    intro arr k hm
    rw [bubbleDown, dif_neg (by omega)]
  | succ m ih =>
    intro arr k hm
    by_cases h : 2 * k + 1 < arr.length
    · rw [bubbleDown, dif_pos h]
      by_cases hlt : arr.getD (smallerChild arr k) 0 < arr.getD k 0
      · rw [if_pos hlt]
        have hsb := smallerChild_bounds arr k h
        exact (ih _ _ (by rw [length_swapL]; omega)).trans
          (swapL_perm arr k (smallerChild arr k) (by omega) hsb.2)
      · rw [if_neg hlt]
    · rw [bubbleDown, dif_neg h]

/-- Bubble-down permutes the array it is given. -/
theorem bubbleDown_perm (arr : List Int) (k : Nat) :
    (bubbleDown arr k).2.Perm arr :=
  bubbleDown_perm_fuel (arr.length - k) arr k le_rfl

/-- Removing the root (swap with last, then pop) of a heap of size at least
two starts bubble-down in the invariant. -/
theorem down_start (arr : List Int) (hheap : isMinHeap arr)
    (h2 : 2 ≤ arr.length) :
    downInv ((swapL arr 0 (arr.length - 1)).dropLast) 0 := by
  constructor
  · intro j hj hj0 hjp
    have hlen : ((swapL arr 0 (arr.length - 1)).dropLast).length = arr.length - 1 := by
      rw [List.length_dropLast, length_swapL]
    rw [hlen] at hj
    have hj' : j < arr.length - 1 := hj
    rw [getD_dropLast _ _ (by rw [length_swapL]; omega),
      getD_dropLast _ _ (by rw [length_swapL]; omega)]
    rw [getD_swapL arr 0 _ _ (by omega) (by omega),
      getD_swapL arr 0 _ _ (by omega) (by omega)]
    rw [if_neg (by omega), if_neg (by omega), if_neg (by omega), if_neg (by omega)]
    exact hheap j (by omega) hj0
  · intro h0
    omega

example : generateInsertSteps [] 5 = [Step.push [5] 0, Step.done [5]] := by
  simp [generateInsertSteps, bubbleUp, swapL]

example : generateInsertSteps [1, 3, 2, 7] 0 =
    [Step.push [1, 3, 2, 7, 0] 4,
     Step.compare [1, 3, 2, 7, 0] 4 1,
     Step.swap [1, 0, 2, 7, 3] 4 1,
     Step.compare [1, 0, 2, 7, 3] 1 0,
     Step.swap [0, 1, 2, 7, 3] 1 0,
     Step.done [0, 1, 2, 7, 3]] := by
  simp [generateInsertSteps, bubbleUp, swapL]

example : generateDeleteMinSteps [0, 1, 2, 7, 3] =
    [Step.removeRoot [0, 1, 2, 7, 3] 0 4,
     Step.swap [3, 1, 2, 7, 0] 0 4,
     Step.pop [3, 1, 2, 7] 4,
     Step.compare [3, 1, 2, 7] 0 1,
     Step.swap [1, 3, 2, 7] 0 1,
     Step.compare [1, 3, 2, 7] 1 3,
     Step.done [1, 3, 2, 7]] := by
  simp [generateDeleteMinSteps, bubbleDown, swapL, smallerChild]

example : generateDeleteMinSteps [] = [] := by
  simp [generateDeleteMinSteps]

example : generateDeleteMinSteps [9] =
    [Step.removeRoot [9] 0 0, Step.done []] := by
  simp [generateDeleteMinSteps]

/-- The final snapshot of an insert trace is the array the bubble-up loop
leaves behind. -/
theorem finalSnap_insert (arr : List Int) (v : Int) :
    finalSnap (generateInsertSteps arr v) =
      (bubbleUp (arr ++ [v]) ((arr ++ [v]).length - 1)).2 := by
  unfold generateInsertSteps finalSnap
  rw [List.getLast?_concat]
  rfl

/-- The final snapshot of a delete-min trace on at least two elements is the
array the bubble-down loop leaves behind. -/
theorem finalSnap_deleteMin (arr : List Int) (h2 : 2 ≤ arr.length) :
    finalSnap (generateDeleteMinSteps arr) =
      (bubbleDown ((swapL arr 0 (arr.length - 1)).dropLast) 0).2 := by
  unfold generateDeleteMinSteps finalSnap
  rw [if_neg (by omega), if_neg (by omega), List.getLast?_concat]
  rfl

/-- The empty array is a heap. -/
theorem isMinHeap_nil : isMinHeap [] := by
  intro i hi
  simp at hi

/-- One insert on a heap ends in a heap. -/
theorem insert_final_heap (arr : List Int) (v : Int) (hheap : isMinHeap arr) :
    isMinHeap (finalSnap (generateInsertSteps arr v)) := by
  rw [finalSnap_insert]
  have hlen : (arr ++ [v]).length - 1 = arr.length := by simp
  rw [hlen]
  exact bubbleUp_heap arr.length (arr ++ [v]) (by simp) (up_start arr v hheap)

/-- One insert permutes the start array extended with the new value. -/
theorem insert_final_perm (arr : List Int) (v : Int) :
    (finalSnap (generateInsertSteps arr v)).Perm (arr ++ [v]) := by
  rw [finalSnap_insert]
  have hlen : (arr ++ [v]).length - 1 = arr.length := by simp
  rw [hlen]
  exact bubbleUp_perm arr.length (arr ++ [v]) (by simp)

/-- C2: for every finite sequence of numeric values inserted one at a time
starting from the empty array — each insert applied by taking the final
snapshot of `generateInsertSteps` as the next starting heap — the final
snapshot satisfies the min-heap invariant. -/
theorem c2_insert_sequence_invariant (vs : List Int) :
    isMinHeap (vs.foldl (fun h v => finalSnap (generateInsertSteps h v)) []) := by
  suffices h : ∀ start : List Int, isMinHeap start →
      isMinHeap (vs.foldl (fun h v => finalSnap (generateInsertSteps h v)) start) by
    exact h [] isMinHeap_nil
  induction vs with
  | nil => intro s hs; simpa using hs
  | cons v vs ih =>
    intro s hs
    exact ih _ (insert_final_heap s v hs)

/-- C9: the final snapshot of every insert trace holds exactly the multiset
of the input array plus one occurrence of the inserted value (stated as a
permutation of the input with the value appended). -/
theorem c9_insert_permutation (arr : List Int) (v : Int) :
    (finalSnap (generateInsertSteps arr v)).Perm (arr ++ [v]) :=
  insert_final_perm arr v

/-- C1: on a non-empty heap, delete-min ends in a heap of the remaining
`n - 1` elements, and the removed value — the one position the final
snapshot lost — is the original `heap[0]`: final snapshot plus `heap[0]`
permutes the original array. -/
theorem c1_deleteMin_correct (arr : List Int) (hne : arr ≠ [])
    (hheap : isMinHeap arr) :
    isMinHeap (finalSnap (generateDeleteMinSteps arr)) ∧
    (finalSnap (generateDeleteMinSteps arr)).length = arr.length - 1 ∧
    (finalSnap (generateDeleteMinSteps arr) ++ [arr.getD 0 0]).Perm arr := by
  have hlen1 : 0 < arr.length := List.length_pos.mpr hne
  by_cases h1 : arr.length = 1
  · obtain ⟨a, rfl⟩ := List.length_eq_one.mp h1
    refine ⟨?_, by simp [generateDeleteMinSteps, finalSnap, Step.arr], ?_⟩
    · simpa [generateDeleteMinSteps, finalSnap, Step.arr] using isMinHeap_nil
    · simp [generateDeleteMinSteps, finalSnap, Step.arr]
  · have hn : 2 ≤ arr.length := by omega
    rw [finalSnap_deleteMin arr hn]
    have hXne : swapL arr 0 (arr.length - 1) ≠ [] := by
      have : (swapL arr 0 (arr.length - 1)).length = arr.length := length_swapL _ _ _
      intro hcon
      rw [hcon] at this
      simp at this
      omega
    have hXlast : (swapL arr 0 (arr.length - 1)).getD
        ((swapL arr 0 (arr.length - 1)).length - 1) 0 = arr.getD 0 0 := by
      rw [length_swapL, getD_swapL arr 0 _ _ (by omega) (by omega), if_pos rfl]
    have hdecomp : (swapL arr 0 (arr.length - 1)).dropLast ++ [arr.getD 0 0] =
        swapL arr 0 (arr.length - 1) := by
      have hd := dropLast_concat_getD (swapL arr 0 (arr.length - 1)) hXne
      rwa [hXlast] at hd
    have hperm : ((bubbleDown ((swapL arr 0 (arr.length - 1)).dropLast) 0).2 ++
        [arr.getD 0 0]).Perm arr := by
      have hp1 := (bubbleDown_perm ((swapL arr 0 (arr.length - 1)).dropLast) 0).append_right
        [arr.getD 0 0]
      rw [hdecomp] at hp1
      exact hp1.trans (swapL_perm arr 0 (arr.length - 1) (by omega) (by omega))
    refine ⟨bubbleDown_heap _ 0 (down_start arr hheap hn), ?_, hperm⟩
    have hl := hperm.length_eq
    simp at hl
    omega

/-- Witness for C1 at the concrete heap of spec scenario 3. -/
theorem c1_deleteMin_correct_witness :
    isMinHeap (finalSnap (generateDeleteMinSteps [0, 1, 2, 7, 3])) ∧
    (finalSnap (generateDeleteMinSteps [0, 1, 2, 7, 3])).length =
      ([0, 1, 2, 7, 3] : List Int).length - 1 ∧
    (finalSnap (generateDeleteMinSteps [0, 1, 2, 7, 3]) ++
      [([0, 1, 2, 7, 3] : List Int).getD 0 0]).Perm [0, 1, 2, 7, 3] :=
  c1_deleteMin_correct [0, 1, 2, 7, 3] (by decide) (by decide)

/-- The bubble-up loop emits at most `2 * k + 1` steps from position `k`. -/
theorem bubbleUp_len : ∀ (k : Nat) (arr : List Int),
    (bubbleUp arr k).1.length ≤ 2 * k + 1 := by
  intro k
  induction k using Nat.strong_induction_on with
  | _ k ih =>
    intro arr
    rw [bubbleUp]
    by_cases hk0 : 0 < k
    · rw [dif_pos hk0]
      by_cases hlt : arr.getD k 0 < arr.getD ((k - 1) / 2) 0
      · rw [if_pos hlt]
        have hrec := ih ((k - 1) / 2) (by omega) (swapL arr k ((k - 1) / 2))
        simp only [List.length_cons]
        omega
      · rw [if_neg hlt]
        simp only [List.length_cons, List.length_nil]
        omega
    · rw [dif_neg hk0]
      simp

/-- Fuel-indexed bound on the steps emitted by the bubble-down loop. -/
theorem bubbleDown_len_fuel : ∀ (m : Nat) (arr : List Int) (k : Nat),
    arr.length - k ≤ m → (bubbleDown arr k).1.length ≤ 2 * (arr.length - k) := by
  intro m
  induction m with
  | zero =>
    intro arr k hm
    rw [bubbleDown, dif_neg (by omega)]
    simp
  | succ m ih =>
    intro arr k hm
    by_cases h : 2 * k + 1 < arr.length
    · rw [bubbleDown, dif_pos h]
      by_cases hlt : arr.getD (smallerChild arr k) 0 < arr.getD k 0
      · rw [if_pos hlt]
        have hsb := smallerChild_bounds arr k h
        have hrec := ih (swapL arr k (smallerChild arr k)) (smallerChild arr k)
          (by rw [length_swapL]; omega)
        rw [length_swapL] at hrec
        simp only [List.length_cons]
        omega
      · rw [if_neg hlt]
        simp only [List.length_cons, List.length_nil]
        omega
    · rw [bubbleDown, dif_neg h]
      simp

/-- Bound on the steps emitted by the bubble-down loop. -/
theorem bubbleDown_len (arr : List Int) (k : Nat) :
    (bubbleDown arr k).1.length ≤ 2 * (arr.length - k) :=
  bubbleDown_len_fuel (arr.length - k) arr k le_rfl

/-- C10: both generators terminate with a finite trace on every input array —
heap-ordered or not — witnessed by explicit length bounds (the bubble-up
index strictly decreases, the bubble-down index strictly increases below the
length, giving at most one compare/swap pair per level). -/
theorem c10_generators_terminate (arr : List Int) (v : Int) :
    (generateInsertSteps arr v).length ≤ 2 * arr.length + 3 ∧
    (generateDeleteMinSteps arr).length ≤ 2 * arr.length + 2 := by
  constructor
  · unfold generateInsertSteps
    have h := bubbleUp_len ((arr ++ [v]).length - 1) (arr ++ [v])
    simp only [List.length_append, List.length_cons, List.length_nil] at h ⊢
    omega
  · by_cases h0 : arr.length = 0
    · unfold generateDeleteMinSteps
      rw [if_pos h0]
      simp
    · by_cases h1 : arr.length - 1 = 0
      · unfold generateDeleteMinSteps
        rw [if_neg h0, if_pos h1]
        simp only [List.length_cons, List.length_nil]
        omega
      · unfold generateDeleteMinSteps
        rw [if_neg h0, if_neg h1]
        have h := bubbleDown_len ((swapL arr 0 (arr.length - 1)).dropLast) 0
        simp only [List.length_dropLast, length_swapL] at h
        simp only [List.length_append, List.length_cons, List.length_nil]
        omega

/-- C7: a delete-min trace is empty exactly when the input heap is empty, and
an insert trace is never empty — it has at least two steps, starts with a
`push` and ends with a `done`. -/
theorem c7_empty_trace_conditions (arr : List Int) (v : Int) :
    (generateDeleteMinSteps arr = [] ↔ arr = []) ∧
    2 ≤ (generateInsertSteps arr v).length ∧
    (generateInsertSteps arr v).head?.map Step.isPush = some true ∧
    (generateInsertSteps arr v).getLast?.map Step.isDone = some true := by
  refine ⟨⟨?_, ?_⟩, ?_, ?_, ?_⟩
  · intro h
    by_cases h0 : arr.length = 0
    · exact List.length_eq_zero.mp h0
    · exfalso
      unfold generateDeleteMinSteps at h
      rw [if_neg h0] at h
      by_cases h1 : arr.length - 1 = 0
      · rw [if_pos h1] at h
        simp at h
      · rw [if_neg h1] at h
        simp at h
  · intro h
    subst h
    rfl
  · unfold generateInsertSteps
    simp only [List.length_append, List.length_cons, List.length_nil]
    omega
  · unfold generateInsertSteps
    rw [List.cons_append]
    rfl
  · unfold generateInsertSteps
    rw [List.getLast?_concat]
    rfl

/-- C5: the candidate child in the bubble-down loop is the left child unless
the right child exists and is strictly smaller; on a tie the left child is
kept. -/
theorem c5_smaller_child_choice (arr : List Int) (i : Nat) :
    (2 * i + 2 < arr.length ∧ arr.getD (2 * i + 2) 0 < arr.getD (2 * i + 1) 0 →
       smallerChild arr i = 2 * i + 2) ∧
    (¬ (2 * i + 2 < arr.length ∧ arr.getD (2 * i + 2) 0 < arr.getD (2 * i + 1) 0) →
       smallerChild arr i = 2 * i + 1) ∧
    (arr.getD (2 * i + 2) 0 = arr.getD (2 * i + 1) 0 →
       smallerChild arr i = 2 * i + 1) := by
  refine ⟨?_, ?_, ?_⟩ <;> intro h
  · unfold smallerChild
    rw [if_pos h]
  · unfold smallerChild
    rw [if_neg h]
  · unfold smallerChild
    rw [if_neg (fun hc => absurd hc.2 (by rw [h]; exact lt_irrefl _))]

/-- Witness for C5: a strictly smaller right child wins; an equal right child
loses to the left child. -/
theorem c5_smaller_child_choice_witness :
    smallerChild [5, 3, 1] 0 = 2 ∧ smallerChild [5, 2, 2] 0 = 1 :=
  ⟨(c5_smaller_child_choice [5, 3, 1] 0).1 (by decide),
   (c5_smaller_child_choice [5, 2, 2] 0).2.2 (by decide)⟩

/-- Bubble-up traces are compare-framed relative to their start array. -/
theorem bubbleUp_framed : ∀ (k : Nat) (arr : List Int),
    compareFramed arr ((bubbleUp arr k).1 ++ [Step.done (bubbleUp arr k).2]) := by
  intro k
  induction k using Nat.strong_induction_on with
  | _ k ih =>
    intro arr
    rw [bubbleUp]
    by_cases hk0 : 0 < k
    · rw [dif_pos hk0]
      by_cases hlt : arr.getD k 0 < arr.getD ((k - 1) / 2) 0
      · rw [if_pos hlt]
        simp only [List.cons_append]
        exact ⟨rfl, ih ((k - 1) / 2) (by omega) (swapL arr k ((k - 1) / 2))⟩
      · rw [if_neg hlt]
        simp only [List.cons_append, List.nil_append]
        exact ⟨rfl, trivial⟩
    · rw [dif_neg hk0]
      simp only [List.nil_append]
      trivial

/-- In bubble-up traces every swap follows its compare. -/
theorem bubbleUp_swaps : ∀ (k : Nat) (arr : List Int) (b : Bool),
    swapsFollowCompare b ((bubbleUp arr k).1 ++ [Step.done (bubbleUp arr k).2]) := by
  intro k
  induction k using Nat.strong_induction_on with
  | _ k ih =>
    intro arr b
    rw [bubbleUp]
    by_cases hk0 : 0 < k
    · rw [dif_pos hk0]
      by_cases hlt : arr.getD k 0 < arr.getD ((k - 1) / 2) 0
      · rw [if_pos hlt]
        simp only [List.cons_append]
        exact ⟨by simp [Step.isSwap], fun _ => rfl,
          ih ((k - 1) / 2) (by omega) (swapL arr k ((k - 1) / 2)) false⟩
      · rw [if_neg hlt]
        simp only [List.cons_append, List.nil_append]
        exact ⟨by simp [Step.isSwap], by simp [Step.isSwap], trivial⟩
    · rw [dif_neg hk0]
      simp only [List.nil_append]
      exact ⟨by simp [Step.isSwap], trivial⟩

/-- Fuel-indexed form: bubble-down traces are compare-framed. -/
theorem bubbleDown_framed_fuel : ∀ (m : Nat) (arr : List Int) (k : Nat),
    arr.length - k ≤ m →
    compareFramed arr ((bubbleDown arr k).1 ++ [Step.done (bubbleDown arr k).2]) := by
  intro m
  induction m with
  | zero =>
    intro arr k hm
    rw [bubbleDown, dif_neg (by omega)]
    simp only [List.nil_append]
    trivial
  | succ m ih =>
    intro arr k hm
    by_cases h : 2 * k + 1 < arr.length
    · rw [bubbleDown, dif_pos h]
      by_cases hlt : arr.getD (smallerChild arr k) 0 < arr.getD k 0
      · rw [if_pos hlt]
        simp only [List.cons_append]
        have hsb := smallerChild_bounds arr k h
        exact ⟨rfl, ih (swapL arr k (smallerChild arr k)) (smallerChild arr k)
          (by rw [length_swapL]; omega)⟩
      · rw [if_neg hlt]
        simp only [List.cons_append, List.nil_append]
        exact ⟨rfl, trivial⟩
    · rw [bubbleDown, dif_neg h]
      simp only [List.nil_append]
      trivial

/-- Bubble-down traces are compare-framed relative to their start array. -/
theorem bubbleDown_framed (arr : List Int) (k : Nat) :
    compareFramed arr ((bubbleDown arr k).1 ++ [Step.done (bubbleDown arr k).2]) :=
  bubbleDown_framed_fuel (arr.length - k) arr k le_rfl

/-- Fuel-indexed form: in bubble-down traces every swap follows its compare. -/
theorem bubbleDown_swaps_fuel : ∀ (m : Nat) (arr : List Int) (k : Nat) (b : Bool),
    arr.length - k ≤ m →
    swapsFollowCompare b ((bubbleDown arr k).1 ++ [Step.done (bubbleDown arr k).2]) := by
  intro m
  induction m with
  | zero =>
    intro arr k b hm
    rw [bubbleDown, dif_neg (by omega)]
    simp only [List.nil_append]
    exact ⟨by simp [Step.isSwap], trivial⟩
  | succ m ih =>
    intro arr k b hm
    by_cases h : 2 * k + 1 < arr.length
    · rw [bubbleDown, dif_pos h]
      by_cases hlt : arr.getD (smallerChild arr k) 0 < arr.getD k 0
      · rw [if_pos hlt]
        simp only [List.cons_append]
        have hsb := smallerChild_bounds arr k h
        exact ⟨by simp [Step.isSwap], fun _ => rfl,
          ih (swapL arr k (smallerChild arr k)) (smallerChild arr k) false
            (by rw [length_swapL]; omega)⟩
      · rw [if_neg hlt]
        simp only [List.cons_append, List.nil_append]
        exact ⟨by simp [Step.isSwap], by simp [Step.isSwap], trivial⟩
    · rw [bubbleDown, dif_neg h]
      simp only [List.nil_append]
      exact ⟨by simp [Step.isSwap], trivial⟩

/-- In bubble-down traces every swap follows its compare. -/
theorem bubbleDown_swaps (arr : List Int) (k : Nat) (b : Bool) :
    swapsFollowCompare b ((bubbleDown arr k).1 ++ [Step.done (bubbleDown arr k).2]) :=
  bubbleDown_swaps_fuel (arr.length - k) arr k b le_rfl

/-- C6: in every generated trace, no step before a compare changes under it —
each `compare` step carries exactly the snapshot of the immediately preceding
step, and the first step is never a compare; moreover every conditional swap
of the bubble loops is immediately preceded by its compare (in the delete-min
trace this concerns the steps after the unconditional root/last exchange and
pop, hence the `drop 2`). -/
theorem c6_compare_frame (arr : List Int) (v : Int) :
    compareFramedTrace (generateInsertSteps arr v) ∧
    swapsFollowCompare false (generateInsertSteps arr v) ∧
    compareFramedTrace (generateDeleteMinSteps arr) ∧
    swapsFollowCompare false ((generateDeleteMinSteps arr).drop 2) := by
  refine ⟨?_, ?_, ?_, ?_⟩
  · unfold generateInsertSteps
    rw [List.cons_append]
    exact ⟨rfl, bubbleUp_framed _ _⟩
  · unfold generateInsertSteps
    rw [List.cons_append]
    exact ⟨by simp [Step.isSwap], bubbleUp_swaps _ _ _⟩
  · unfold generateDeleteMinSteps
    by_cases h0 : arr.length = 0
    · rw [if_pos h0]
      trivial
    · rw [if_neg h0]
      by_cases h1 : arr.length - 1 = 0
      · rw [if_pos h1]
        exact ⟨rfl, trivial⟩
      · rw [if_neg h1]
        rw [List.cons_append, List.cons_append, List.cons_append]
        exact ⟨rfl, bubbleDown_framed _ 0⟩
  · unfold generateDeleteMinSteps
    by_cases h0 : arr.length = 0
    · rw [if_pos h0]
      trivial
    · rw [if_neg h0]
      by_cases h1 : arr.length - 1 = 0
      · rw [if_pos h1]
        trivial
      · rw [if_neg h1]
        rw [List.cons_append, List.cons_append, List.cons_append]
        simp only [List.drop_succ_cons, List.drop_zero]
        exact ⟨by simp [Step.isSwap], bubbleDown_swaps _ 0 false⟩

/-- Clearing the timer always leaves no held handle. -/
theorem clearTimer_timerRef (st : CState) : (clearTimer st).timerRef = none := by
  cases h : st.timerRef <;> simp [clearTimer, h]

/-- Under the timer discipline, clearing the timer empties the live set. -/
theorem clearTimer_live (st : CState) (h : timerOK st) :
    (clearTimer st).liveTimers = [] := by
  cases htr : st.timerRef with
  | none =>
    have hl : st.liveTimers = [] := by simpa [timerOK, htr] using h
    simp [clearTimer, htr, hl]
  | some n =>
    have hl : st.liveTimers = [n] := by simpa [timerOK, htr] using h
    simp [clearTimer, htr, hl]

/-- Clearing preserves the timer discipline. -/
theorem timerOK_clearTimer (st : CState) (h : timerOK st) :
    timerOK (clearTimer st) := by
  unfold timerOK
  rw [clearTimer_timerRef st, clearTimer_live st h]

/-- Scheduling on an empty live set restores the timer discipline. -/
theorem timerOK_setTimer (st : CState) (h : st.liveTimers = []) :
    timerOK (setTimer st) := by
  unfold timerOK setTimer
  simp [h]

/-- Loading a trace preserves the timer discipline. -/
theorem timerOK_startSteps (steps : List Step) (st : CState) (h : timerOK st) :
    timerOK (startSteps steps st) := by
  cases steps with
  | nil => simpa [startSteps] using h
  | cons s0 rest =>
    unfold startSteps timerOK
    simp [applyStep, clearTimer_timerRef st, clearTimer_live st h]

/-- A step application preserves the timer discipline. -/
theorem timerOK_runStep (st : CState) (h : timerOK st) : timerOK (runStep st) := by
  unfold runStep
  split
  · simpa [timerOK, applyStep] using h
  · unfold timerOK
    simp [clearTimer_timerRef st, clearTimer_live st h]

/-- Play preserves the timer discipline. -/
theorem timerOK_handlePlay (st : CState) (h : timerOK st) :
    timerOK (handlePlay st) := by
  unfold handlePlay
  split
  · exact h
  · split
    · exact h
    · apply timerOK_setTimer
      simp [clearTimer_live st h]

/-- Pause preserves the timer discipline. -/
theorem timerOK_handlePause (st : CState) (h : timerOK st) :
    timerOK (handlePause st) := by
  unfold handlePause timerOK
  simp [clearTimer_timerRef st, clearTimer_live st h]

/-- Manual stepping preserves the timer discipline. -/
theorem timerOK_handleNext (st : CState) (h : timerOK st) :
    timerOK (handleNext st) := by
  unfold handleNext
  apply timerOK_runStep
  split
  · unfold timerOK
    simp [clearTimer_timerRef st, clearTimer_live st h]
  · exact h

/-- A speed change preserves the timer discipline. -/
theorem timerOK_speedEffect (st : CState) (h : timerOK st) :
    timerOK (speedEffect st) := by
  unfold speedEffect
  split
  · exact timerOK_setTimer _ (clearTimer_live st h)
  · exact h

/-- Every reachable controller state obeys the timer discipline. -/
theorem reachable_timerOK (st : CState) (h : Reachable st) : timerOK st := by
  induction h with
  | init => rfl
  | insert st v _ ih =>
    cases v with
    | none => exact ih
    | some n => exact timerOK_startSteps _ st ih
  | randomInsert st n _ ih => exact timerOK_startSteps _ st ih
  | deleteMin st _ ih => exact timerOK_startSteps _ st ih
  | play st _ ih => exact timerOK_handlePlay st ih
  | pause st _ ih => exact timerOK_handlePause st ih
  | next st _ ih => exact timerOK_handleNext st ih
  | tick st _ _ ih => exact timerOK_runStep st ih
  | speed st ms _ ih => exact timerOK_speedEffect _ (by simpa [timerOK] using ih)
  | teardown st _ ih => exact timerOK_clearTimer st ih

/-- C4 (amended to the cleaned component): in every reachable state of the
cleaned controller at most one interval timer is live — load, play, manual
step, speed change and teardown each cancel the held handle before (or
without) creating a new one.  The older duplicate component violates the
claim as stated; see the counterexample. -/
theorem c4_single_live_timer (st : CState) (h : Reachable st) :
    st.liveTimers.length ≤ 1 := by
  have hok := reachable_timerOK st h
  unfold timerOK at hok
  cases htr : st.timerRef with
  | none =>
    rw [htr] at hok
    simp [hok]
  | some n =>
    rw [htr] at hok
    simp [hok]

/-- Witness for C4 at the initial state. -/
theorem c4_single_live_timer_witness : initState.liveTimers.length ≤ 1 :=
  c4_single_live_timer initState Reachable.init

/-- Counterexample to C4 as stated: in the older duplicate component
(`HeapVisualizer.jsx`), `startSteps` schedules a new interval without
cancelling the previous one, so inserting while a trace is playing leaves
two live timers. -/
theorem c4_counterexample :
    (Legacy.handleInsert 3 (Legacy.handleInsert 5 Legacy.initState)).liveTimers.length = 2 := by
  have h1 : Legacy.handleInsert 5 Legacy.initState =
      { heap := [5], running := true, highlight := none,
        steps := [Step.push [5] 0, Step.done [5]], stepIndex := 1,
        timerRef := some 0, liveTimers := [0], nextHandle := 1 } := by
    unfold Legacy.handleInsert
    simp [Legacy.initState, generateInsertSteps, bubbleUp]
    rfl
  rw [h1]
  unfold Legacy.handleInsert
  simp [generateInsertSteps, bubbleUp, swapL]
  rfl

/-- C3 (amended to the cleaned component): loading a non-empty trace applies
step 0 synchronously — publishing its heap snapshot, highlight and
pseudo-text in the same call — sets the cursor to 1, and leaves the
controller paused with no live timer.  The older duplicate component
violates the claim as stated; see the counterexample. -/
theorem c3_startSteps_loads_paused (s0 : Step) (rest : List Step)
    (st : CState) (h : timerOK st) :
    (startSteps (s0 :: rest) st).stepIndex = 1 ∧
    (startSteps (s0 :: rest) st).running = false ∧
    (startSteps (s0 :: rest) st).timerRef = none ∧
    (startSteps (s0 :: rest) st).liveTimers = [] ∧
    (startSteps (s0 :: rest) st).heap = s0.arr ∧
    (startSteps (s0 :: rest) st).highlight = stepHighlight s0 ∧
    (startSteps (s0 :: rest) st).pseudo = stepPseudo s0 ∧
    (startSteps (s0 :: rest) st).steps = s0 :: rest := by
  refine ⟨rfl, rfl, ?_, ?_, rfl, rfl, rfl, rfl⟩
  · show (clearTimer st).timerRef = none
    exact clearTimer_timerRef st
  · show (clearTimer st).liveTimers = []
    exact clearTimer_live st h

/-- Witness for C3: loading the trace of spec scenario 1 into a freshly
mounted controller. -/
theorem c3_startSteps_loads_paused_witness :
    (startSteps [Step.push [5] 0, Step.done [5]] initState).stepIndex = 1 ∧
    (startSteps [Step.push [5] 0, Step.done [5]] initState).running = false ∧
    (startSteps [Step.push [5] 0, Step.done [5]] initState).timerRef = none ∧
    (startSteps [Step.push [5] 0, Step.done [5]] initState).liveTimers = [] ∧
    (startSteps [Step.push [5] 0, Step.done [5]] initState).heap = (Step.push [5] 0).arr ∧
    (startSteps [Step.push [5] 0, Step.done [5]] initState).highlight = stepHighlight (Step.push [5] 0) ∧
    (startSteps [Step.push [5] 0, Step.done [5]] initState).pseudo = stepPseudo (Step.push [5] 0) ∧
    (startSteps [Step.push [5] 0, Step.done [5]] initState).steps = [Step.push [5] 0, Step.done [5]] :=
  c3_startSteps_loads_paused (Step.push [5] 0) [Step.done [5]] initState rfl

/-- Counterexample to C3 as stated: the older duplicate component's
`startSteps` starts playing immediately — it schedules an interval, reports
`running`, and publishes a cleared highlight instead of step 0's. -/
theorem c3_counterexample :
    (Legacy.startSteps (generateInsertSteps [] 5) Legacy.initState).running = true ∧
    (Legacy.startSteps (generateInsertSteps [] 5) Legacy.initState).liveTimers.length = 1 ∧
    (Legacy.startSteps (generateInsertSteps [] 5) Legacy.initState).highlight = none := by
  refine ⟨?_, ?_, ?_⟩ <;>
    simp [Legacy.startSteps, Legacy.initState, generateInsertSteps, bubbleUp]

/-- C8 (amended to the cleaned component): on a non-numeric insert input
(`Number(value)` is `NaN`, modelled as `none`) the insert handler returns
the state unchanged — no trace generated, nothing loaded, published heap,
highlight and pseudo-text untouched.  The older duplicate component violates
the claim as stated; see the counterexample. -/
theorem c8_insert_nan_noop (st : CState) : handleInsert none st = st := rfl

/-- Counterexample to C8 as stated: the older duplicate component's
`handleInsert` has no `NaN` guard — a non-numeric input generates and loads
a trace, changing the published state (the heap becomes `[NaN]`). -/
theorem c8_counterexample : handleInsertN none initStateN ≠ initStateN := by
  intro hcon
  have h1 : (handleInsertN none initStateN).heap = [none] := by
    simp [handleInsertN, generateInsertStepsN, bubbleUpN, startStepsN,
      StepN.arr, initStateN]
  rw [hcon] at h1
  simp [initStateN] at h1
